import Mathlib

/-!
Verification of the email ingestion pipeline of the jots-google-importer
Obsidian plugin. The TypeScript sources are embedded shallowly:

* machine strings become Lean String (a list of characters);
* Node filesystem effects become explicit state passing over an effect log;
* network calls become function or list parameters supplying the outcome of
  each request, with thrown exceptions modeled by Except;
* JavaScript truthiness on optional strings is modeled explicitly (an absent
  value and the empty string are both falsy).

The definitions follow src/utils/files.ts, src/api/google/auth.ts and the
Gmail client module; the theorems at the end settle the frozen claims.
-/

namespace JotsGoogleImporter

/-! ### JavaScript string primitives -/

/-- The whitespace class used by the JavaScript regex escape for whitespace
and by trim. (The full JS class also contains exotic Unicode spaces, which
never occur in the inputs considered here.) -/
def jsWhitespace (c : Char) : Bool :=
  c = ' ' || c = '\t' || c = '\n' || c = '\r' || c = '\x0b' || c = '\x0c'

/-- JavaScript String.prototype.trim on a character list. -/
def jsTrimChars (cs : List Char) : List Char :=
  ((cs.dropWhile jsWhitespace).reverse.dropWhile jsWhitespace).reverse

/-- JavaScript String.prototype.trim. -/
def jsTrim (s : String) : String :=
  ⟨jsTrimChars s.toList⟩

/-- JavaScript String.prototype.replace with a plain string pattern:
replaces the first occurrence of the pattern (an empty pattern matches at
position zero). None of the replacement strings used by the sources contain
a dollar sign, so the special replacement patterns of JavaScript never
trigger. -/
def replaceFirstChars : List Char → List Char → List Char → List Char
  | [], pat, rep => if pat = [] then rep else []
  | c :: rest, pat, rep =>
    if pat.isPrefixOf (c :: rest) then rep ++ (c :: rest).drop pat.length
    else c :: replaceFirstChars rest pat rep

/-- JavaScript String.prototype.replace with a plain string pattern. -/
def replaceFirst (s pat rep : String) : String :=
  ⟨replaceFirstChars s.toList pat.toList rep.toList⟩

/-! ### Node path.join (posix)

Mirrors the posix implementation: the nonempty arguments are joined with a
slash and the result is normalized, resolving dot and dot-dot segments and
collapsing repeated separators, preserving a leading and a trailing slash. -/

/-- Split a character list on the slash character. -/
def splitSlash : List Char → List (List Char)
  | [] => [[]]
  | c :: rest =>
    if c = '/' then [] :: splitSlash rest
    else
      match splitSlash rest with
      | s :: ss => (c :: s) :: ss
      | [] => [[c]]

/-- Join segments with the slash character (inverse of splitSlash). -/
def joinSlash : List (List Char) → List Char
  | [] => []
  | s :: rest => if rest = [] then s else s ++ '/' :: joinSlash rest

/-- A normal path segment: nonempty and neither a dot nor a dot-dot
segment; path normalization leaves a path made of normal segments
untouched. -/
def normalSeg (seg : List Char) : Bool :=
  seg ≠ [] && seg ≠ ['.'] && seg ≠ ['.', '.']

/-- One step of the normalization stack machine of Node path.normalize:
empty and dot segments are dropped, a dot-dot segment pops a previous
segment (accumulating at the front of a relative path, vanishing at the
root of an absolute one), anything else is pushed. -/
def normStack (abs : Bool) : List (List Char) → List (List Char) → List (List Char)
  | stack, [] => stack
  | stack, seg :: rest =>
    if seg = [] || seg = ['.'] then normStack abs stack rest
    else if seg = ['.', '.'] then
      match stack with
      | top :: stacktail =>
        if top = ['.', '.'] then normStack abs (seg :: top :: stacktail) rest
        else normStack abs stacktail rest
      | [] => if abs then normStack abs [] rest else normStack abs [seg] rest
    else normStack abs (seg :: stack) rest

/-- Whether a path starts with a separator. -/
def isAbsolutePath (p : List Char) : Bool :=
  match p with
  | c :: _ => c = '/'
  | [] => false

/-- Whether a path ends with a separator. -/
def hasTrailingSlash (p : List Char) : Bool :=
  match p.getLast? with
  | some c => c = '/'
  | none => false

/-- Node posix path.normalize on a character list. -/
def normalizeChars (p : List Char) : List Char :=
  if p = [] then ['.']
  else
    let abs := isAbsolutePath p
    let trail := hasTrailingSlash p
    let core := joinSlash (normStack abs [] (splitSlash p)).reverse
    if core = [] then
      if abs then ['/'] else if trail then ['.', '/'] else ['.']
    else
      (if abs then '/' :: core else core) ++ (if trail then ['/'] else [])

/-- Node posix path.join: the nonempty parts are joined with a slash and the
result normalized; with no nonempty part the result is a dot. -/
def pathJoin (parts : List String) : String :=
  match parts.filter (fun p => p ≠ "") with
  | [] => "."
  | p :: rest => ⟨normalizeChars (joinSlash ((p :: rest).map String.toList))⟩

/-! ### File placement (saveFileToStack, src/utils/files.ts) -/

/-- The filesystem effect log threaded through saveFileToStack: the folders
created and the files written (path and content), most recent first. -/
structure FS where
  dirs : List String
  files : List (String × String)
deriving DecidableEq

/-- Whether a filename starts with eight decimal digits, as tested by the
anchored date regex of saveFileToStack. -/
def startsWithEightDigits (filename : String) : Bool :=
  8 ≤ filename.toList.length && (filename.toList.take 8).all Char.isDigit

/-- The anchored date regex match of saveFileToStack: on success the two
capture groups, the first four digits (year) and the following two digits
(month), taken verbatim from the filename. -/
def dateMatch8 (filename : String) : Option (String × String) :=
  if startsWithEightDigits filename then
    some (⟨filename.toList.take 4⟩, ⟨(filename.toList.drop 4).take 2⟩)
  else none

/-- saveFileToStack from src/utils/files.ts, with the filesystem threaded
explicitly: joins the fixed Chronological/Email prefix with the subfolder
template, matches the leading date of the filename (throwing when absent),
substitutes the first occurrence of YYYY and then the first occurrence of
YYYY-MM in the joined template, creates the target folder when missing,
writes the file and returns the target path. -/
def saveFileToStack (fs : FS) (vaultRoot subfolderStructure filename content : String) :
    Except String String × FS :=
  let fullSubfolderStructure := pathJoin ["Chronological", "Email", subfolderStructure]
  match dateMatch8 filename with
  | none => (Except.error "Filename does not contain a valid date.", fs)
  | some (year, month) =>
    let subfolder :=
      replaceFirst (replaceFirst fullSubfolderStructure "YYYY" year)
        "YYYY-MM" (year ++ "-" ++ month)
    let targetFolder := pathJoin [vaultRoot, subfolder]
    let fs1 :=
      if fs.dirs.contains targetFolder then fs
      else { fs with dirs := targetFolder :: fs.dirs }
    let targetPath := pathJoin [targetFolder, filename]
    (Except.ok targetPath, { fs1 with files := (targetPath, content) :: fs1.files })

/-- Modelled from the spec of File Placement: the fixed Chronological/Email
prefix ahead of the user template, with the year substituted into the first
YYYY occurrence and the year-month into the first YYYY-MM occurrence of the
result. -/
def resolvedSubfolder (subfolderStructure year month : String) : String :=
  replaceFirst (replaceFirst ("Chronological/Email/" ++ subfolderStructure) "YYYY" year)
    "YYYY-MM" (year ++ "-" ++ month)

/-! ### Base64 and UTF-8 (Buffer.toString, Buffer.from) -/

/-- The standard base64 alphabet. -/
def base64Alphabet : List Char :=
  "ABCDEFGHIJKLMNOPQRSTUVWXYZabcdefghijklmnopqrstuvwxyz0123456789+/".toList

/-- The base64 digit for a six bit value. -/
def b64Char (n : Nat) : Char :=
  base64Alphabet.getD n 'A'

/-- Base64 encoding of a byte list with padding, as produced by
Buffer.prototype.toString with the base64 encoding. -/
def base64Encode : List Nat → List Char
  | [] => []
  | [b1] =>
    let v := b1 % 256
    [b64Char (v / 4), b64Char (v % 4 * 16), '=', '=']
  | [b1, b2] =>
    let v1 := b1 % 256
    let v2 := b2 % 256
    [b64Char (v1 / 4), b64Char (v1 % 4 * 16 + v2 / 16), b64Char (v2 % 16 * 4), '=']
  | b1 :: b2 :: b3 :: rest =>
    let v1 := b1 % 256
    let v2 := b2 % 256
    let v3 := b3 % 256
    b64Char (v1 / 4) :: b64Char (v1 % 4 * 16 + v2 / 16) ::
      b64Char (v2 % 16 * 4 + v3 / 64) :: b64Char (v3 % 64) :: base64Encode rest

/-- The six bit value of a base64 digit; accepts the URL-safe variants of
the two last digits, as the Node decoder does; padding and any other
character yield nothing and are skipped by the lenient decoder. -/
def b64Value (c : Char) : Option Nat :=
  if c = '+' || c = '-' then some 62
  else if c = '/' || c = '_' then some 63
  else match base64Alphabet.indexOf? c with
    | some i => some i
    | none => none

/-- Reassemble bytes from six bit values, four values to three bytes, with
the truncated final quantum conventions of base64. -/
def b64Quantum : List Nat → List Nat
  | v1 :: v2 :: v3 :: v4 :: rest =>
    (v1 * 4 + v2 / 16) :: (v2 % 16 * 16 + v3 / 4) :: (v3 % 4 * 64 + v4) :: b64Quantum rest
  | [v1, v2] => [v1 * 4 + v2 / 16]
  | [v1, v2, v3] => [v1 * 4 + v2 / 16, v2 % 16 * 16 + v3 / 4]
  | _ => []

/-- Lenient base64 decoding to bytes, as performed by Buffer.from with the
base64 encoding: characters outside the alphabet (padding included) are
skipped, then the six bit values are packed. -/
def base64Decode (cs : List Char) : List Nat :=
  b64Quantum (cs.filterMap b64Value)

/-- Whether a byte is a UTF-8 continuation byte. -/
def isUtf8Cont (b : Nat) : Bool :=
  128 ≤ b && b < 192

/-- UTF-8 decoding of a byte list, as performed by Buffer.prototype.toString
with the utf-8 encoding: well formed sequences are decoded exactly; a
malformed leading byte becomes the replacement character (the exact
replacement policy of the WHATWG decoder on malformed input is approximated,
all inputs considered here are well formed). The fuel argument bounds the
recursion and is adequate whenever it is at least the length of the input,
since every step consumes at least one byte. -/
def utf8DecodeAux : Nat → List Nat → List Char
  | 0, _ => []
  | _ + 1, [] => []
  | fuel + 1, b :: rest =>
    if b < 128 then Char.ofNat b :: utf8DecodeAux fuel rest
    else if 192 ≤ b && b < 224 then
      match rest with
      | b2 :: rest2 =>
        if isUtf8Cont b2 then Char.ofNat ((b - 192) * 64 + (b2 - 128)) :: utf8DecodeAux fuel rest2
        else '�' :: utf8DecodeAux fuel rest
      | [] => ['�']
    else if 224 ≤ b && b < 240 then
      match rest with
      | b2 :: b3 :: rest3 =>
        if isUtf8Cont b2 && isUtf8Cont b3 then
          Char.ofNat ((b - 224) * 4096 + (b2 - 128) * 64 + (b3 - 128)) :: utf8DecodeAux fuel rest3
        else '�' :: utf8DecodeAux fuel rest
      | _ => ['�']
    else if 240 ≤ b && b < 248 then
      match rest with
      | b2 :: b3 :: b4 :: rest4 =>
        if isUtf8Cont b2 && isUtf8Cont b3 && isUtf8Cont b4 then
          Char.ofNat ((b - 240) * 262144 + (b2 - 128) * 4096 + (b3 - 128) * 64 + (b4 - 128)) ::
            utf8DecodeAux fuel rest4
        else '�' :: utf8DecodeAux fuel rest
      | _ => ['�']
    else '�' :: utf8DecodeAux fuel rest

/-- UTF-8 decoding of a byte list. -/
def utf8Decode (bs : List Nat) : List Char :=
  utf8DecodeAux bs.length bs

/-- Buffer.from(s, base64).toString(utf-8): base64 decode then UTF-8
decode, as applied to MIME part data throughout fetchEmailContent. -/
def decodeBase64Utf8 (s : String) : String :=
  ⟨utf8Decode (base64Decode s.toList)⟩

/-! ### Image inliner (src/utils/files.ts) -/

/-- Attempt of the image regex at a position right after a literal img tag
opener: a greedy run of characters other than the closing angle bracket,
backtracking to the last src attribute opener inside that run, then a
nonempty capture of characters other than quote and angle bracket, closed by
a quote. On success, the captured URL and the number of characters consumed
after the opener. -/
def tryMatchAfterImg (s : List Char) : Option (List Char × Nat) :=
  let pre := s.takeWhile (fun c => c ≠ '>')
  let positions := (List.range pre.length).filter fun i =>
    1 ≤ i && ("src=\"".toList.isPrefixOf (pre.drop i))
  positions.reverse.findSome? fun i =>
    let cap := (s.drop (i + 5)).takeWhile (fun c => !(c = '"' || c = '>'))
    if cap ≠ [] && ['"'].isPrefixOf (s.drop (i + 5 + cap.length)) then
      some (cap, i + 5 + cap.length + 1)
    else none

/-- The scanning loop of the global image regex: at each position, if the
literal img tag opener starts there, attempt the rest of the pattern; a
successful match contributes its capture and scanning resumes after the
match, otherwise scanning advances one character. The fuel argument bounds
the recursion and is adequate whenever it is at least the length of the
input, since every step consumes at least one character. -/
def extractImageUrlsAux : Nat → List Char → List (List Char)
  | 0, _ => []
  | _ + 1, [] => []
  | fuel + 1, c :: rest =>
    if "<img".toList.isPrefixOf (c :: rest) then
      match tryMatchAfterImg ((c :: rest).drop 4) with
      | some (url, consumed) =>
        url :: extractImageUrlsAux fuel (((c :: rest).drop 4).drop consumed)
      | none => extractImageUrlsAux fuel rest
    else extractImageUrlsAux fuel rest

/-- extractImageUrls from src/utils/files.ts: all URLs captured by the
global image source regex, in first occurrence order. -/
def extractImageUrls (html : String) : List String :=
  (extractImageUrlsAux html.toList.length html.toList).map fun cs => ⟨cs⟩

/-- The outcome of one HTTP GET for an image: nothing models any axios
failure, otherwise the response bytes and the optional content type
header. -/
abbrev HttpResponse := List Nat × Option String

/-- fetchImageWithFallback from src/utils/files.ts, with the network
outcome passed in: on success the bytes are base64 encoded into a data URI
using the declared content type (defaulting to image png when the header is
absent or empty); on any error the function swallows it and yields
nothing. -/
def fetchImageWithFallback (response : Option HttpResponse) : Option String :=
  match response with
  | none => none
  | some (bytes, contentType) =>
    let base64Data : String := ⟨base64Encode bytes⟩
    let mimeType :=
      match contentType with
      | some ct => if ct = "" then "image/png" else ct
      | none => "image/png"
    some ("data:" ++ mimeType ++ ";base64," ++ base64Data)

/-- saveImagesLocally from src/utils/files.ts, with the network outcome of
each URL (in order) passed in: fetches each URL and pushes only the
successful data URIs, so a failed fetch contributes nothing to the result
array (URLs beyond the supplied outcomes behave as failures). -/
def saveImagesLocally : List String → List (Option HttpResponse) → List String
  | [], _ => []
  | _url :: urls, r :: rs =>
    match fetchImageWithFallback r with
    | some base64Data => base64Data :: saveImagesLocally urls rs
    | none => saveImagesLocally urls rs
  | _url :: urls, [] => saveImagesLocally urls []

/-- The indexed forEach loop of replaceImageUrlsWithBase64: for each URL, the
entry of the data array at the same index (an out of range index, like an
empty entry, is falsy) replaces the first occurrence of the URL, an absent
entry replaces it with the empty string. -/
def replaceLoop (base64Data : List String) : String → List String → Nat → String
  | html, [], _ => html
  | html, url :: rest, index =>
    let base64 := base64Data.getD index ""
    if base64 ≠ "" then replaceLoop base64Data (replaceFirst html url base64) rest (index + 1)
    else replaceLoop base64Data (replaceFirst html url "") rest (index + 1)

/-- replaceImageUrlsWithBase64 from src/utils/files.ts. -/
def replaceImageUrlsWithBase64 (html : String) (urls : List String)
    (base64Data : List String) : String :=
  replaceLoop base64Data html urls 0

/-- The argument record of prepareEmailContent: optional HTML and plain
text bodies. -/
structure EmailRecord where
  HtmlBody : Option String
  TextBody : Option String

/-- JavaScript truthiness of an optional string: absent and empty are both
falsy. -/
def strTruthy : Option String → Bool
  | none => false
  | some s => s ≠ ""

/-- prepareEmailContent from src/utils/files.ts, with the network outcomes
of the image fetches passed in: a truthy HTML body goes through the image
inliner, otherwise a truthy text body is wrapped in a preformatted shell,
otherwise a placeholder page is produced. -/
def prepareEmailContent (email : EmailRecord) (responses : List (Option HttpResponse)) : String :=
  if strTruthy email.HtmlBody then
    let html := email.HtmlBody.getD ""
    let imageUrls := extractImageUrls html
    let base64ImageData := saveImagesLocally imageUrls responses
    replaceImageUrlsWithBase64 html imageUrls base64ImageData
  else if strTruthy email.TextBody then
    "<html><body><pre>" ++ email.TextBody.getD "" ++ "</pre></body></html>"
  else
    "<html><body><p>No content available.</p></body></html>"

/-! ### MIME part tree (fetchEmailContent, src/utils/files.ts) -/

/-- A node of the MIME part tree of a Gmail message: a MIME type, optional
base64 body data (modeling body question mark data, absent body and absent
data both decode from the empty string) and optional nested parts (an
absent array and an empty array are distinguished, as the source tests the
array for truthiness and an empty array is truthy). -/
inductive MessagePart : Type where
  | mk (mimeType : String) (bodyData : Option String) (parts : Option (List MessagePart))

/-- The decoded content of a part body: base64 then UTF-8 decoding of the
data, absent data decoding from the empty string. -/
def decodeContent (bodyData : Option String) : String :=
  decodeBase64Utf8 (bodyData.getD "")

/-- extractBodyFromParts from src/utils/files.ts: scans the parts in order;
a part whose MIME type matches returns its decoded content immediately
(even when empty); otherwise a truthy parts array is searched recursively
and a nonempty nested result is returned; otherwise the scan continues; an
exhausted scan returns the empty string. -/
def extractBodyFromParts : List MessagePart → String → String
  | [], _ => ""
  | .mk mt bd sub :: rest, mimeType =>
    if mt = mimeType then decodeContent bd
    else
      match sub with
      | some subparts =>
        let nested := extractBodyFromParts subparts mimeType
        if nested ≠ "" then nested else extractBodyFromParts rest mimeType
      | none => extractBodyFromParts rest mimeType

/-- Modelled from the spec of the Content Extractor: the first part in
depth first preorder whose MIME type matches, descending into nested parts
after the node itself. Used only to compare the source function against the
specified behavior. -/
def firstPartDFS : List MessagePart → String → Option MessagePart
  | [], _ => none
  | .mk mt bd sub :: rest, mimeType =>
    if mt = mimeType then some (.mk mt bd sub)
    else
      match sub with
      | some subparts =>
        match firstPartDFS subparts mimeType with
        | some found => some found
        | none => firstPartDFS rest mimeType
      | none => firstPartDFS rest mimeType

/-- Modelled from the spec of the Content Extractor: the decoded content of
the first matching part in depth first order, empty when no part matches. -/
def specBodyFromParts (parts : List MessagePart) (mimeType : String) : String :=
  match firstPartDFS parts mimeType with
  | some (.mk _ bd _) => decodeContent bd
  | none => ""

/-- Every part of the tree whose MIME type matches has nonempty decoded
content. -/
def allMatchesNonempty : List MessagePart → String → Bool
  | [], _ => true
  | .mk mt bd sub :: rest, mimeType =>
    (if mt = mimeType then decodeContent bd ≠ "" else true) &&
      (match sub with
       | some subparts => allMatchesNonempty subparts mimeType
       | none => true) &&
      allMatchesNonempty rest mimeType

/-! ### Header extraction (fetchEmailContent, src/utils/files.ts) -/

/-- A header of the full message payload; the source reads the name and
value fields directly, so they are modeled as present. -/
structure EmailHeader where
  name : String
  value : String

/-- JavaScript toLowerCase restricted to ASCII letters, the only characters
occurring in the header names compared by the source. -/
def asciiLower (c : Char) : Char :=
  if 'A' ≤ c && c ≤ 'Z' then Char.ofNat (c.toNat + 32) else c

/-- JavaScript String.prototype.toLowerCase (ASCII fragment). -/
def jsToLower (s : String) : String :=
  ⟨s.toList.map asciiLower⟩

/-- The case insensitive header lookup of fetchEmailContent. -/
def findHeader (headers : List EmailHeader) (key : String) : Option EmailHeader :=
  headers.find? fun h => jsToLower h.name = key

/-- The attempt of the first alternative of the sender regex at the head of
the input: an opening angle bracket, a nonempty greedy run of characters
other than the closing bracket (captured), then the closing bracket. -/
def tryAngleAt (cs : List Char) : Option (List Char) :=
  match cs with
  | c :: rest =>
    if c = '<' then
      let inner := rest.takeWhile (fun x => x ≠ '>')
      if inner ≠ [] && rest.drop inner.length ≠ [] then some inner else none
    else none
  | [] => none

/-- Scan for the first position where the angle bracket alternative of the
sender regex matches. -/
def scanAngle : List Char → Option (List Char)
  | [] => none
  | c :: rest =>
    match tryAngleAt (c :: rest) with
    | some inner => some inner
    | none => scanAngle rest

/-- No character is an opening angle bracket or whitespace. -/
def noLtNoWs (cs : List Char) : Bool :=
  cs.all fun c => !(c = '<' || jsWhitespace c)

/-- No character is a closing angle bracket or whitespace. -/
def noGtNoWs (cs : List Char) : Bool :=
  cs.all fun c => !(c = '>' || jsWhitespace c)

/-- The anchored second alternative of the sender regex: the whole input
splits as a nonempty run without opening bracket or whitespace, an at sign,
and a nonempty run without closing bracket or whitespace. -/
def isBareAddress (cs : List Char) : Bool :=
  (List.range cs.length).any fun i =>
    cs.getD i ' ' = '@' && 1 ≤ i && noLtNoWs (cs.take i) &&
      i + 1 < cs.length && noGtNoWs (cs.drop (i + 1))

/-- The sender regex of fetchEmailContent, an alternation preferring an
angle bracketed address with the bare address alternative anchored to the
whole input: at position zero the angle alternative is tried before the
anchored bare alternative, later positions admit only the angle
alternative; the result is the text the source selects, the capture group
for an angle match and the whole match for a bare match. -/
def fromMatch (cs : List Char) : Option (List Char) :=
  match tryAngleAt cs with
  | some inner => some inner
  | none =>
    if isBareAddress cs then some cs
    else
      match cs with
      | [] => none
      | _ :: rest => scanAngle rest

/-- The sender extraction of fetchEmailContent: the From header is looked
up case insensitively; a regex match yields the selected text trimmed, an
absent header or a failed match yields the unknown marker. -/
def extractSender (headers : List EmailHeader) : String :=
  match findHeader headers "from" with
  | some fromHeader =>
    match fromMatch fromHeader.value.toList with
    | some matched => jsTrim ⟨matched⟩
    | none => "unknown"
  | none => "unknown"

/-! ### fetchEmailContent (src/utils/files.ts) -/

/-- The payload of a full format Gmail message: optional headers, a MIME
type, optional base64 body data and optional nested parts. -/
structure FullPayload where
  headers : Option (List EmailHeader)
  mimeType : String
  bodyData : Option String
  parts : Option (List MessagePart)

/-- The record returned by fetchEmailContent. -/
structure EmailContent where
  HtmlBody : String
  TextBody : String
  «from» : String
  date : String

/-- The body extraction of fetchEmailContent: a truthy parts array is
searched for an HTML part and for a plain text part; otherwise the payload
itself is the single degenerate node and its own MIME type selects which
body its decoded data becomes. -/
def extractBodies (payload : FullPayload) : String × String :=
  match payload.parts with
  | some parts =>
    (extractBodyFromParts parts "text/html", extractBodyFromParts parts "text/plain")
  | none =>
    if payload.mimeType = "text/html" then (decodeContent payload.bodyData, "")
    else if payload.mimeType = "text/plain" then ("", decodeContent payload.bodyData)
    else ("", "")

/-- fetchEmailContent from src/utils/files.ts, with the service response
passed in as an Except (a rejected request is rethrown by the source) and
the JavaScript date machinery abstracted: parseDate models the Date
constructor on a header value (nothing for an invalid date) and toISO
models toISOString on a valid date. A present Date header that fails to
parse makes toISOString throw, which the source catch logs and rethrows;
an absent Date header leaves the date field an empty string. -/
def fetchEmailContent (parseDate : String → Option Int) (toISO : Int → String)
    (response : Except String FullPayload) : Except String EmailContent :=
  match response with
  | .error e => .error e
  | .ok payload =>
    let headers := payload.headers.getD []
    let sender := extractSender headers
    match findHeader headers "date" with
    | some dateHeader =>
      match parseDate dateHeader.value with
      | none => .error "Invalid time value"
      | some t =>
        let bodies := extractBodies payload
        .ok { HtmlBody := bodies.1, TextBody := bodies.2, «from» := sender, date := toISO t }
    | none =>
      let bodies := extractBodies payload
      .ok { HtmlBody := bodies.1, TextBody := bodies.2, «from» := sender, date := "" }

/-! ### OAuth client reconstruction (getAuthClient, src/api/google/auth.ts) -/

/-- The credential record destructured by getAuthClient. -/
structure GoogleCredentials where
  client_id : String
  client_secret : String
  redirect_uris : List String

/-- The client handle built by getAuthClient: constructor arguments and the
optional token credentials installed by setCredentials. -/
structure OAuth2Client where
  clientId : String
  clientSecret : String
  redirectUri : Option String
  credentials : Option String

/-- getAuthClient from src/api/google/auth.ts, with JSON parsing of the
token abstracted as parseJson (nothing models a parse exception): a falsy
token returns nothing; the client is then constructed (the construction of
the typed model cannot fail, matching the well typed credential record);
a token parse failure is caught, merely logged, and the client is returned
anyway with no credentials installed. -/
def getAuthClient (parseJson : String → Option String)
    (credentials : GoogleCredentials) (token : Option String) : Option OAuth2Client :=
  if !strTruthy token then none
  else
    let oAuth2Client : OAuth2Client :=
      { clientId := credentials.client_id
        clientSecret := credentials.client_secret
        redirectUri := credentials.redirect_uris.head?
        credentials := none }
    let withToken :=
      match parseJson (token.getD "") with
      | some tokens => { oAuth2Client with credentials := some tokens }
      | none => oAuth2Client
    some withToken

/-! ### Gmail label query (fetchEmailsWithLabelSubjects) -/

/-- A message reference of the list response; the identifier may be
absent. -/
structure MessageRef where
  id : Option String

/-- The response of the label filtered list query. -/
structure ListResponse where
  status : Nat
  messages : Option (List MessageRef)

/-- A metadata header of the per message subject fetch; the Gmail schema
declares both fields optional. -/
structure MetaHeader where
  name : Option String
  value : Option String

/-- The payload of the metadata fetch. -/
structure MetaPayload where
  headers : Option (List MetaHeader)

/-- The body of the metadata fetch response. -/
structure MetaMessage where
  payload : Option MetaPayload

/-- The per message loop of fetchEmailsWithLabelSubjects: a falsy
identifier is skipped; a failed metadata fetch is caught, logged and
skipped; otherwise the Subject header (matched by exact name) yields the
subject, defaulting to a placeholder when absent or empty, and the pair is
appended. -/
def fetchEmailsLoop (getResult : String → Except String MetaMessage) :
    List (Option String) → List (String × String)
  | [] => []
  | messageId :: restIds =>
    match messageId with
    | none => fetchEmailsLoop getResult restIds
    | some mid =>
      if mid = "" then fetchEmailsLoop getResult restIds
      else
        match getResult mid with
        | .error _ => fetchEmailsLoop getResult restIds
        | .ok message =>
          let headers := (message.payload.bind MetaPayload.headers).getD []
          let subject :=
            match headers.find? (fun h => h.name = some "Subject") with
            | some subjectHeader =>
              match subjectHeader.value with
              | some v => if v = "" then "No Subject" else v
              | none => "No Subject"
            | none => "No Subject"
          (subject, mid) :: fetchEmailsLoop getResult restIds

/-- fetchEmailsWithLabelSubjects from the Gmail client module, with the two
network interactions passed in: a rejected or non success list query yields
the empty list (the outer catch swallows everything), otherwise the
identifiers are collected and the per message loop runs. The embedding is
total: every failure a callee can raise is modeled in the Except arguments
and caught exactly where the source catches it. -/
def fetchEmailsWithLabelSubjects (listResult : Except String ListResponse)
    (getResult : String → Except String MetaMessage) : List (String × String) :=
  match listResult with
  | .error _ => []
  | .ok response =>
    if response.status ≠ 200 then []
    else
      let messageIds := (response.messages.map (fun ms => ms.map MessageRef.id)).getD []
      fetchEmailsLoop getResult messageIds


/-! ### Helper lemmas

Facts about the path splitter and the normalization machine, the sender
regex scanner, and the MIME tree walker, shared by the claim theorems
below. -/

theorem splitSlash_ne_nil (p : List Char) : splitSlash p ≠ [] := by
  induction p with
  | nil => simp [splitSlash]
  | cons c rest ih =>
    rw [splitSlash]
    by_cases hc : c = '/'
    · simp [hc]
    · simp only [if_neg hc]
      cases h : splitSlash rest with
      | nil => exact absurd h ih
      | cons s ss => simp

theorem joinSlash_splitSlash (p : List Char) : joinSlash (splitSlash p) = p := by
  induction p with
  | nil => simp [splitSlash, joinSlash]
  | cons c rest ih =>
    rw [splitSlash]
    by_cases hc : c = '/'
    · subst hc
      simp only [if_pos rfl]
      cases h : splitSlash rest with
      | nil => exact absurd h (splitSlash_ne_nil rest)
      | cons s ss =>
        rw [h] at ih
        simp only [joinSlash]
        simpa using ih
    · simp only [if_neg hc]
      cases h : splitSlash rest with
      | nil => exact absurd h (splitSlash_ne_nil rest)
      | cons s ss =>
        rw [h] at ih
        cases ss with
        | nil => simp only [joinSlash] at ih ⊢; simpa using ih
        | cons s2 ss2 =>
          simp only [joinSlash] at ih ⊢
          simpa using ih

theorem splitSlash_noSlash_append (a b : List Char) (ha : ∀ c ∈ a, c ≠ '/') (hne : a ≠ []) :
    splitSlash (a ++ '/' :: b) = a :: splitSlash b := by
  induction a with
  | nil => exact absurd rfl hne
  | cons c arest ih =>
    have hc : c ≠ '/' := ha c (List.mem_cons_self c arest)
    rw [List.cons_append, splitSlash, if_neg hc]
    cases harest : arest with
    | nil =>
      simp only [List.nil_append]
      rw [splitSlash, if_pos rfl]
    | cons c2 arest2 =>
      rw [← harest]
      have ha2 : ∀ x ∈ arest, x ≠ '/' := fun x hx => ha x (List.mem_cons_of_mem c hx)
      have hne2 : arest ≠ [] := by rw [harest]; simp
      rw [ih ha2 hne2]

theorem normStack_all_normal (abs : Bool) (segs : List (List Char))
    (h : ∀ s ∈ segs, normalSeg s = true) :
    ∀ stack, normStack abs stack segs = segs.reverse ++ stack := by
  induction segs with
  | nil => intro stack; rw [normStack]; simp
  | cons seg rest ih =>
    intro stack
    have hseg : normalSeg seg = true := h seg (List.mem_cons_self seg rest)
    have h1 : seg ≠ [] := by
      intro he; rw [he] at hseg; simp [normalSeg] at hseg
    have h2 : seg ≠ ['.'] := by
      intro he; rw [he] at hseg; simp [normalSeg] at hseg
    have h3 : seg ≠ ['.', '.'] := by
      intro he; rw [he] at hseg; simp [normalSeg] at hseg
    rw [normStack.eq_def]
    simp only [h1, h2, h3, decide_eq_true_eq, if_false, Bool.or_self, if_neg]
    rw [ih (fun s hs => h s (List.mem_cons_of_mem seg hs)) (seg :: stack)]
    simp

theorem slash_mem_two_le (p : List Char) (h : '/' ∈ p) : 2 ≤ (splitSlash p).length := by
  induction p with
  | nil => simp at h
  | cons c rest ih =>
    rw [splitSlash]
    by_cases hc : c = '/'
    · simp only [if_pos hc, List.length_cons]
      have := splitSlash_ne_nil rest
      have : 1 ≤ (splitSlash rest).length := by
        cases hs : splitSlash rest with
        | nil => exact absurd hs this
        | cons s ss => simp
      omega
    · have hr : '/' ∈ rest := by
        rcases List.mem_cons.mp h with h1 | h2
        · exact absurd h1.symm hc
        · exact h2
      have h2 := ih hr
      simp only [if_neg hc]
      cases hs : splitSlash rest with
      | nil => exact absurd hs (splitSlash_ne_nil rest)
      | cons s ss =>
        rw [hs] at h2
        simpa using h2

theorem trailing_getLast (p : List Char) (h : hasTrailingSlash p = true) :
    p.getLast? = some '/' := by
  rw [hasTrailingSlash] at h
  cases hg : p.getLast? with
  | none => rw [hg] at h; simp at h
  | some c =>
    rw [hg] at h
    simp only [decide_eq_true_eq] at h
    subst h
    rfl

theorem getLast_splitSlash_of_trailing (p : List Char) (h : hasTrailingSlash p = true) :
    (splitSlash p).getLast? = some [] := by
  induction p with
  | nil => simp [hasTrailingSlash] at h
  | cons c rest ih =>
    cases hrest : rest with
    | nil =>
      subst hrest
      have hc : c = '/' := by
        have := trailing_getLast [c] h
        simpa using this
      subst hc
      simp [splitSlash]
    | cons c2 rest2 =>
      rw [← hrest]
      have hr : hasTrailingSlash rest = true := by
        rw [hasTrailingSlash] at h ⊢
        rw [hrest] at h ⊢
        rwa [List.getLast?_cons_cons] at h
      have ihr := ih hr
      rw [splitSlash]
      by_cases hc : c = '/'
      · simp only [if_pos hc]
        cases hs : splitSlash rest with
        | nil => exact absurd hs (splitSlash_ne_nil rest)
        | cons s ss =>
          rw [hs] at ihr
          rw [List.getLast?_cons_cons]
          exact ihr
      · simp only [if_neg hc]
        cases hs : splitSlash rest with
        | nil => exact absurd hs (splitSlash_ne_nil rest)
        | cons s ss =>
          rw [hs] at ihr
          cases ss with
          | nil =>
            exfalso
            have hsl : '/' ∈ rest := by
              have hg := trailing_getLast rest hr
              exact List.mem_of_mem_getLast? hg
            have := slash_mem_two_le rest hsl
            rw [hs] at this
            simp at this
          | cons s2 ss2 =>
            rw [List.getLast?_cons_cons]
            rwa [List.getLast?_cons_cons] at ihr

theorem normalize_of_normal (p : List Char)
    (h : ∀ s ∈ splitSlash p, normalSeg s = true) : normalizeChars p = p := by
  have hp : p ≠ [] := by
    intro he
    subst he
    have := h [] (by simp [splitSlash])
    simp [normalSeg] at this
  have habs : isAbsolutePath p = false := by
    cases p with
    | nil => exact absurd rfl hp
    | cons c rest =>
      rw [isAbsolutePath]
      simp only [decide_eq_false_iff_not]
      intro hc
      subst hc
      have := h [] (by rw [splitSlash, if_pos rfl]; simp)
      simp [normalSeg] at this
  have htrail : hasTrailingSlash p = false := by
    cases ht : hasTrailingSlash p with
    | false => rfl
    | true =>
      have hg := getLast_splitSlash_of_trailing p ht
      have := h [] (List.mem_of_mem_getLast? hg)
      simp [normalSeg] at this
  rw [normalizeChars, if_neg hp]
  simp only [habs, htrail]
  rw [normStack_all_normal false (splitSlash p) h []]
  simp only [List.append_nil, List.reverse_reverse]
  rw [joinSlash_splitSlash]
  simp [hp]

theorem pathJoin_chronological_email (t : String)
    (h : ∀ s ∈ splitSlash t.toList, normalSeg s = true) :
    pathJoin ["Chronological", "Email", t] = "Chronological/Email/" ++ t := by
  have ht : t ≠ "" := by
    intro he
    subst he
    have := h [] (by simp [splitSlash])
    simp [normalSeg] at this
  have hfilter : (["Chronological", "Email", t].filter (fun p => p ≠ "")) =
      ["Chronological", "Email", t] := by
    simp [List.filter, ht]
  have hsplit : splitSlash ("Chronological".toList ++ '/' :: ("Email".toList ++ '/' :: t.toList))
      = "Chronological".toList :: "Email".toList :: splitSlash t.toList := by
    rw [splitSlash_noSlash_append _ _ (by decide) (by decide)]
    rw [splitSlash_noSlash_append _ _ (by decide) (by decide)]
  have hnorm : normalizeChars ("Chronological".toList ++ '/' :: ("Email".toList ++ '/' :: t.toList))
      = "Chronological".toList ++ '/' :: ("Email".toList ++ '/' :: t.toList) := by
    apply normalize_of_normal
    rw [hsplit]
    intro s hs
    rcases List.mem_cons.mp hs with h1 | hs2
    · subst h1; decide
    · rcases List.mem_cons.mp hs2 with h2 | hs3
      · subst h2; decide
      · exact h s hs3
  have hjoin : joinSlash (["Chronological", "Email", t].map String.toList)
      = "Chronological".toList ++ '/' :: ("Email".toList ++ '/' :: t.toList) := by
    simp [joinSlash]
  rw [pathJoin.eq_def, hfilter]
  simp only []
  rw [hjoin, hnorm]
  cases t with
  | mk data => rfl

theorem takeWhile_append_gt (xs ys : List Char) (h : ∀ c ∈ xs, c ≠ '>') :
    (xs ++ '>' :: ys).takeWhile (fun x => x ≠ '>') = xs := by
  induction xs with
  | nil => simp [List.takeWhile]
  | cons c rest ih =>
    have hc : c ≠ '>' := h c (List.mem_cons_self c rest)
    have hrest := ih (fun x hx => h x (List.mem_cons_of_mem c hx))
    have hb : decide (c ≠ '>') = true := by simp [hc]
    rw [List.cons_append, List.takeWhile_cons, hb, if_pos rfl, hrest]

theorem tryAngleAt_bracket (xs ys : List Char) (hne : xs ≠ []) (h : ∀ c ∈ xs, c ≠ '>') :
    tryAngleAt ('<' :: xs ++ '>' :: ys) = some xs := by
  show tryAngleAt ('<' :: (xs ++ '>' :: ys)) = some xs
  rw [tryAngleAt]
  simp only [if_pos rfl]
  rw [takeWhile_append_gt xs ys h]
  have hd : (xs ++ '>' :: ys).drop xs.length = '>' :: ys := List.drop_left xs ('>' :: ys)
  rw [hd]
  simp [hne]

theorem tryAngleAt_not_lt (c : Char) (rest : List Char) (hc : c ≠ '<') :
    tryAngleAt (c :: rest) = none := by
  rw [tryAngleAt]
  simp [hc]

theorem scanAngle_append_no_lt (pre rest : List Char) (h : ∀ c ∈ pre, c ≠ '<') :
    scanAngle (pre ++ rest) = scanAngle rest := by
  induction pre with
  | nil => simp
  | cons c ptail ih =>
    have hc : c ≠ '<' := h c (List.mem_cons_self c ptail)
    rw [List.cons_append, scanAngle, tryAngleAt_not_lt c _ hc]
    exact ih (fun x hx => h x (List.mem_cons_of_mem c hx))

theorem isBareAddress_trailing_gt (xs : List Char) :
    isBareAddress (xs ++ ['>']) = false := by
  rw [isBareAddress, List.any_eq_false]
  intro i hi
  by_cases hlt : i + 1 < (xs ++ ['>']).length
  · have hle : i + 1 ≤ xs.length := by
      simp only [List.length_append, List.length_cons, List.length_nil] at hlt
      omega
    have hgtmem : '>' ∈ (xs ++ ['>']).drop (i + 1) := by
      rw [List.drop_append_eq_append_drop]
      have h0 : i + 1 - xs.length = 0 := by omega
      rw [h0]
      exact List.mem_append.mpr (Or.inr (by simp))
    have hfalse : noGtNoWs ((xs ++ ['>']).drop (i + 1)) = false := by
      rw [Bool.eq_false_iff]
      intro hall
      rw [noGtNoWs, List.all_eq_true] at hall
      have := hall '>' hgtmem
      simp at this
    simp [hfalse]
  · have hfalse : decide (i + 1 < (xs ++ ['>']).length) = false := by
      simpa using hlt
    simp [hfalse]
    intro _ _ _ hcontra
    exfalso
    apply hlt
    simp only [List.length_append, List.length_cons, List.length_nil]
    omega

theorem dropWhile_all_false {p : Char → Bool} (l : List Char)
    (h : ∀ c ∈ l, p c = false) : l.dropWhile p = l := by
  cases l with
  | nil => rfl
  | cons c rest =>
    rw [List.dropWhile_cons]
    simp [h c (List.mem_cons_self c rest)]

theorem jsTrimChars_id (cs : List Char) (h : ∀ c ∈ cs, jsWhitespace c = false) :
    jsTrimChars cs = cs := by
  rw [jsTrimChars]
  rw [dropWhile_all_false cs h]
  rw [dropWhile_all_false cs.reverse (fun c hc => h c (List.mem_reverse.mp hc))]
  exact List.reverse_reverse cs

theorem isBareAddress_spec (cs : List Char) (h : isBareAddress cs = true) :
    ∃ i, i < cs.length ∧ cs.getD i ' ' = '@' ∧ 1 ≤ i ∧ noLtNoWs (cs.take i) = true ∧
      i + 1 < cs.length ∧ noGtNoWs (cs.drop (i + 1)) = true := by
  rw [isBareAddress, List.any_eq_true] at h
  obtain ⟨i, hmem, hp⟩ := h
  rw [List.mem_range] at hmem
  refine ⟨i, hmem, ?_⟩
  simp only [Bool.and_eq_true, decide_eq_true_eq] at hp
  obtain ⟨⟨⟨⟨h1, h2⟩, h3⟩, h4⟩, h5⟩ := hp
  exact ⟨h1, h2, h3, h4, h5⟩

theorem isBareAddress_no_ws (cs : List Char) (h : isBareAddress cs = true) :
    ∀ c ∈ cs, jsWhitespace c = false := by
  obtain ⟨i, hi, hat, h1, hA, hi1, hB⟩ := isBareAddress_spec cs h
  intro c hc
  rw [← List.take_append_drop i cs] at hc
  rcases List.mem_append.mp hc with hc1 | hc2
  · rw [noLtNoWs, List.all_eq_true] at hA
    have := hA c hc1
    simp only [Bool.not_eq_true', Bool.or_eq_false_iff] at this
    exact this.2
  · rw [List.drop_eq_getElem_cons hi] at hc2
    rcases List.mem_cons.mp hc2 with hc3 | hc4
    · subst hc3
      have : cs.getD i ' ' = cs[i] := List.getD_eq_getElem cs ' ' hi
      rw [← this, hat]
      rfl
    · rw [noGtNoWs, List.all_eq_true] at hB
      have := hB c hc4
      simp only [Bool.not_eq_true', Bool.or_eq_false_iff] at this
      exact this.2

theorem isBareAddress_head_not_lt (c : Char) (rest : List Char)
    (h : isBareAddress (c :: rest) = true) : c ≠ '<' := by
  obtain ⟨i, hi, hat, h1, hA, hi1, hB⟩ := isBareAddress_spec (c :: rest) h
  rw [noLtNoWs, List.all_eq_true] at hA
  have hmem : c ∈ (c :: rest).take i := by
    cases i with
    | zero => omega
    | succ j => simp [List.take_cons]
  have := hA c hmem
  simp only [Bool.not_eq_true', Bool.or_eq_false_iff, decide_eq_false_iff_not] at this
  exact this.1

theorem fromMatch_angle (nl a : List Char) (hn : ∀ c ∈ nl, c ≠ '<')
    (ha1 : a ≠ []) (ha2 : ∀ c ∈ a, c ≠ '>') :
    fromMatch (nl ++ '<' :: (a ++ ['>'])) = some a := by
  have hbr : tryAngleAt ('<' :: (a ++ ['>'])) = some a := by
    have : a ++ ['>'] = a ++ '>' :: ([] : List Char) := rfl
    rw [this]
    exact tryAngleAt_bracket a [] ha1 ha2
  cases nl with
  | nil =>
    rw [List.nil_append, fromMatch.eq_def, hbr]
  | cons c ntail =>
    have hc : c ≠ '<' := hn c (List.mem_cons_self c ntail)
    have hbare : isBareAddress ((c :: ntail) ++ '<' :: (a ++ ['>'])) = false := by
      have hsh : (c :: ntail) ++ '<' :: (a ++ ['>']) = ((c :: ntail) ++ '<' :: a) ++ ['>'] := by
        simp
      rw [hsh]
      exact isBareAddress_trailing_gt _
    rw [fromMatch.eq_def]
    rw [List.cons_append]
    rw [tryAngleAt_not_lt c _ hc]
    rw [← List.cons_append, hbare]
    simp only [Bool.false_eq_true, if_false]
    show scanAngle (ntail ++ '<' :: (a ++ ['>'])) = some a
    rw [scanAngle_append_no_lt ntail _ (fun x hx => hn x (List.mem_cons_of_mem c hx))]
    rw [scanAngle, hbr]

theorem string_toList_append (s t : String) : (s ++ t).toList = s.toList ++ t.toList := by
  cases s with
  | mk d1 => cases t with
    | mk d2 => rfl

theorem extractSender_from_header (value : String) :
    extractSender [⟨"From", value⟩] =
      (match fromMatch value.toList with
       | some matched => jsTrim ⟨matched⟩
       | none => "unknown") := by
  have hfind : findHeader [(⟨"From", value⟩ : EmailHeader)] "from"
      = some ⟨"From", value⟩ := rfl
  rw [extractSender, hfind]


theorem allMatchesNonempty_parts (mt : String) (bd : Option String)
    (sub : Option (List MessagePart)) (rest : List MessagePart) (m : String)
    (h : allMatchesNonempty (MessagePart.mk mt bd sub :: rest) m = true) :
    (mt = m → decodeContent bd ≠ "") ∧
    (∀ subparts, sub = some subparts → allMatchesNonempty subparts m = true) ∧
    allMatchesNonempty rest m = true := by
  cases sub with
  | none =>
    rw [allMatchesNonempty.eq_3] at h
    simp only [Bool.and_eq_true] at h
    obtain ⟨⟨h1, _⟩, h3⟩ := h
    refine ⟨?_, ?_, h3⟩
    · intro he
      rw [if_pos he] at h1
      simpa using h1
    · intro subparts hs
      exact absurd hs (by simp)
  | some sp =>
    rw [allMatchesNonempty.eq_2] at h
    simp only [Bool.and_eq_true] at h
    obtain ⟨⟨h1, h2⟩, h3⟩ := h
    refine ⟨?_, ?_, h3⟩
    · intro he
      rw [if_pos he] at h1
      simpa using h1
    · intro subparts hs
      injection hs with hs2
      subst hs2
      exact h2

theorem firstPartDFS_nonempty (parts : List MessagePart) (m : String) :
    allMatchesNonempty parts m = true →
    ∀ mt2 bd2 sub2, firstPartDFS parts m = some (MessagePart.mk mt2 bd2 sub2) →
      decodeContent bd2 ≠ "" := by
  induction parts, m using firstPartDFS.induct with
  | case1 m =>
    intro _ mt2 bd2 sub2 hf
    rw [firstPartDFS.eq_1] at hf
    exact absurd hf (by simp)
  | case2 bd sub rest m =>
    intro h mt2 bd2 sub2 hf
    have hf2 : some (MessagePart.mk m bd sub) = some (MessagePart.mk mt2 bd2 sub2) := by
      cases sub with
      | none => rw [firstPartDFS.eq_3, if_pos rfl] at hf; exact hf
      | some sp => rw [firstPartDFS.eq_2, if_pos rfl] at hf; exact hf
    injection hf2 with hf3
    cases hf3
    exact ((allMatchesNonempty_parts m bd sub rest m h).1 rfl)
  | case3 mt bd rest m hmt subparts found hfound ih =>
    intro h mt2 bd2 sub2 hf
    rw [firstPartDFS.eq_2, if_neg hmt] at hf
    simp only [hfound] at hf
    injection hf with hf2
    subst hf2
    have hsub := (allMatchesNonempty_parts mt bd (some subparts) rest m h).2.1 subparts rfl
    exact ih hsub mt2 bd2 sub2 hfound
  | case4 mt bd rest m hmt subparts hnone ihsub ihrest =>
    intro h mt2 bd2 sub2 hf
    rw [firstPartDFS.eq_2, if_neg hmt] at hf
    simp only [hnone] at hf
    have hrest := (allMatchesNonempty_parts mt bd (some subparts) rest m h).2.2
    exact ihrest hrest mt2 bd2 sub2 hf
  | case5 mt bd rest m hmt ihrest =>
    intro h mt2 bd2 sub2 hf
    rw [firstPartDFS.eq_3, if_neg hmt] at hf
    have hrest := (allMatchesNonempty_parts mt bd none rest m h).2.2
    exact ihrest hrest mt2 bd2 sub2 hf


/-- Claim C3 (amended): for every subfolder template whose slash separated
segments are all nonempty and none is a dot or dot-dot segment, the
resolved subfolder is the fixed prefix Chronological/Email/ followed by the
template, with the year substituted for the first occurrence of YYYY and
then the year-month substituted for the first occurrence of YYYY-MM in the
result of that first substitution (so a template whose first YYYY
occurrence lies inside a YYYY-MM token is mangled, see the counterexample);
in particular for template YYYY/YYYY-MM and a 2024-03-15 date the resolved
subfolder is Chronological/Email/2024/2024-03. -/
theorem claim_C3_subfolder_resolution (fs : FS)
    (vaultRoot subfolderStructure filename content year month : String)
    (hd : dateMatch8 filename = some (year, month))
    (ht : ∀ s ∈ splitSlash subfolderStructure.toList, normalSeg s = true) :
    (saveFileToStack fs vaultRoot subfolderStructure filename content).1
      = Except.ok (pathJoin [pathJoin [vaultRoot,
          resolvedSubfolder subfolderStructure year month], filename]) := by
  simp only [saveFileToStack, hd, resolvedSubfolder,
    pathJoin_chronological_email subfolderStructure ht]

/-- Witness for claim C3 at the template of the spec example, resolving to
Chronological/Email/2024/2024-03 under the vault root. -/
theorem claim_C3_witness :
    dateMatch8 "20240315_120000.htm" = some ("2024", "03") ∧
    (saveFileToStack ⟨[], []⟩ "vault" "YYYY/YYYY-MM" "20240315_120000.htm" "c").1
      = Except.ok "vault/Chronological/Email/2024/2024-03/20240315_120000.htm" := by
  refine ⟨rfl, ?_⟩
  have h := claim_C3_subfolder_resolution ⟨[], []⟩ "vault" "YYYY/YYYY-MM"
    "20240315_120000.htm" "c" "2024" "03" rfl (by decide)
  rw [h]
  rfl

/-- Counterexample for claim C3 as stated: for the template consisting of
the single token YYYY-MM, the claimed resolution would substitute the
year-month into the token and produce Chronological/Email/2024-03, but the
code first substitutes the year into the leading YYYY of that very token
and produces Chronological/Email/2024-MM. -/
theorem claim_C3_counterexample :
    (saveFileToStack ⟨[], []⟩ "vault" "YYYY-MM" "20240315_mail.htm" "c").1
      = Except.ok "vault/Chronological/Email/2024-MM/20240315_mail.htm" ∧
    ("vault/Chronological/Email/2024-MM/20240315_mail.htm" : String)
      ≠ "vault/Chronological/Email/2024-03/20240315_mail.htm" :=
  ⟨rfl, by decide⟩

/-- Claim C2: for every filename that does not begin with eight digits,
saveFileToStack throws and performs no filesystem effect at all: the result
is the error value and the filesystem log is returned unchanged, so no file
is written and no directory is created. -/
theorem claim_C2_invalid_filename_is_pure_error (fs : FS)
    (vaultRoot subfolderStructure filename content : String)
    (h : startsWithEightDigits filename = false) :
    saveFileToStack fs vaultRoot subfolderStructure filename content
      = (Except.error "Filename does not contain a valid date.", fs) := by
  simp [saveFileToStack, dateMatch8, h]

/-- Witness for claim C2 at the concrete filename note.htm. -/
theorem claim_C2_witness :
    startsWithEightDigits "note.htm" = false ∧
    saveFileToStack ⟨[], []⟩ "vault" "YYYY/YYYY-MM" "note.htm" "content"
      = (Except.error "Filename does not contain a valid date.", ⟨[], []⟩) :=
  ⟨rfl, claim_C2_invalid_filename_is_pure_error ⟨[], []⟩ "vault" "YYYY/YYYY-MM"
    "note.htm" "content" rfl⟩

/-- Claim C10: every filename beginning with any eight digits is accepted
by saveFileToStack without error regardless of calendar validity: the date
match returns verbatim digits one to four as the year and five to six as
the month, and the write succeeds with those components substituted into
the subfolder. -/
theorem claim_C10_no_date_validation (filename : String)
    (h : startsWithEightDigits filename = true) :
    dateMatch8 filename
        = some (⟨filename.toList.take 4⟩, ⟨(filename.toList.drop 4).take 2⟩) ∧
    ∀ (fs : FS) (vaultRoot subfolderStructure content : String),
      (saveFileToStack fs vaultRoot subfolderStructure filename content).1
        = Except.ok (pathJoin [pathJoin [vaultRoot,
            replaceFirst
              (replaceFirst (pathJoin ["Chronological", "Email", subfolderStructure])
                "YYYY" ⟨filename.toList.take 4⟩)
              "YYYY-MM"
              (⟨filename.toList.take 4⟩ ++ "-" ++ ⟨(filename.toList.drop 4).take 2⟩)],
            filename]) := by
  refine ⟨by simp [dateMatch8, h], ?_⟩
  intro fs vaultRoot subfolderStructure content
  simp [saveFileToStack, dateMatch8, h]

/-- Witness for claim C10 at a filename starting 20241399, whose month
component 13 is not a calendar month yet flows into the subfolder. -/
theorem claim_C10_witness :
    startsWithEightDigits "20241399_note.htm" = true ∧
    (saveFileToStack ⟨[], []⟩ "vault" "YYYY/YYYY-MM" "20241399_note.htm" "c").1
      = Except.ok "vault/Chronological/Email/2024/2024-13/20241399_note.htm" := by
  refine ⟨rfl, ?_⟩
  have h := (claim_C10_no_date_validation "20241399_note.htm" rfl).2
    ⟨[], []⟩ "vault" "YYYY/YYYY-MM" "c"
  rw [h]
  rfl

/-- Claim C1: the spec asserts that every URL occurrence whose fetch
succeeds is replaced by the data URI of its own bytes and every failed
occurrence by the empty string. The code diverges: saveImagesLocally keeps
only the successful data URIs while replaceImageUrlsWithBase64 pairs the
URL at an index with the data entry at the same index, so at the failing
input below (first fetch fails, second succeeds) the first tag receives the
data URI of the second image and the second tag becomes empty, the exact
opposite of the specified outcome. -/
theorem claim_C1_index_misalignment :
    prepareEmailContent
        ⟨some "<img src=\"http://h/one.png\"><img src=\"http://h/two.png\">", none⟩
        [none, some ([137, 80], some "image/png")]
      = "<img src=\"data:image/png;base64,iVA=\"><img src=\"\">" ∧
    ("<img src=\"data:image/png;base64,iVA=\"><img src=\"\">" : String)
      ≠ "<img src=\"\"><img src=\"data:image/png;base64,iVA=\">" :=
  ⟨rfl, by decide⟩

/-- Claim C4: getAuthClient returns nothing when the token is absent or
empty, and for a nonempty token whose JSON parse fails it still returns a
client handle (with no credentials installed) rather than nothing. -/
theorem claim_C4_auth_client (parseJson : String → Option String)
    (credentials : GoogleCredentials) :
    getAuthClient parseJson credentials none = none ∧
    getAuthClient parseJson credentials (some "") = none ∧
    ∀ token : String, token ≠ "" → parseJson token = none →
      getAuthClient parseJson credentials (some token)
        = some { clientId := credentials.client_id
                 clientSecret := credentials.client_secret
                 redirectUri := credentials.redirect_uris.head?
                 credentials := none } := by
  refine ⟨rfl, rfl, ?_⟩
  intro token h hp
  simp [getAuthClient, strTruthy, h, hp]

/-- Witness for claim C4 at a concrete unparsable token. -/
theorem claim_C4_witness :
    getAuthClient (fun _ => none) ⟨"id", "secret", ["http://127.0.0.1:8000"]⟩ (some "not-json")
      = some ⟨"id", "secret", some "http://127.0.0.1:8000", none⟩ := by
  have h := (claim_C4_auth_client (fun _ => none)
    ⟨"id", "secret", ["http://127.0.0.1:8000"]⟩).2.2 "not-json" (by decide) rfl
  simpa using h

/-- Claim C7: when the HTML body is absent or empty and a plain text body
exists, prepareEmailContent wraps the text in the minimal preformatted
shell; when neither body exists the placeholder page is produced; and when
the HTML body is absent or empty the result does not depend on the image
fetch outcomes, so the image inlining path runs only for a nonempty HTML
body. Existence of a body is JavaScript truthiness, matching the source
conditionals. -/
theorem claim_C7_content_fallbacks (email : EmailRecord)
    (responses : List (Option HttpResponse)) :
    (strTruthy email.HtmlBody = false → strTruthy email.TextBody = true →
      prepareEmailContent email responses
        = "<html><body><pre>" ++ email.TextBody.getD "" ++ "</pre></body></html>") ∧
    (strTruthy email.HtmlBody = false → strTruthy email.TextBody = false →
      prepareEmailContent email responses
        = "<html><body><p>No content available.</p></body></html>") ∧
    (strTruthy email.HtmlBody = false → ∀ responses2 : List (Option HttpResponse),
      prepareEmailContent email responses = prepareEmailContent email responses2) := by
  refine ⟨?_, ?_, ?_⟩
  · intro h1 h2
    simp [prepareEmailContent, h1, h2]
  · intro h1 h2
    simp [prepareEmailContent, h1, h2]
  · intro h1 responses2
    simp [prepareEmailContent, h1]

/-- Witness for claim C7 at a text-only record and an empty record. -/
theorem claim_C7_witness :
    prepareEmailContent ⟨none, some "plain text"⟩ []
      = "<html><body><pre>plain text</pre></body></html>" ∧
    prepareEmailContent ⟨some "", none⟩ [some ([1], none)]
      = "<html><body><p>No content available.</p></body></html>" :=
  ⟨((claim_C7_content_fallbacks ⟨none, some "plain text"⟩ []).1 rfl rfl).trans rfl,
   (claim_C7_content_fallbacks ⟨some "", none⟩ [some ([1], none)]).2.1 rfl rfl⟩

/-- Claim C9: when a Date header is present but its value fails to parse,
fetchEmailContent throws (the ISO conversion raises), so the message fails
fatally; when the Date header is absent the function succeeds and leaves
the date field empty, the marker on which the orchestrator falls back to
the current time; when the header parses the ISO rendering is returned. -/
theorem claim_C9_invalid_date_fatal (parseDate : String → Option Int) (toISO : Int → String)
    (payload : FullPayload) :
    (∀ dateHeader, findHeader (payload.headers.getD []) "date" = some dateHeader →
      parseDate dateHeader.value = none →
      fetchEmailContent parseDate toISO (Except.ok payload) = Except.error "Invalid time value") ∧
    (findHeader (payload.headers.getD []) "date" = none →
      fetchEmailContent parseDate toISO (Except.ok payload)
        = Except.ok { HtmlBody := (extractBodies payload).1
                      TextBody := (extractBodies payload).2
                      «from» := extractSender (payload.headers.getD [])
                      date := "" }) ∧
    (∀ dateHeader t, findHeader (payload.headers.getD []) "date" = some dateHeader →
      parseDate dateHeader.value = some t →
      fetchEmailContent parseDate toISO (Except.ok payload)
        = Except.ok { HtmlBody := (extractBodies payload).1
                      TextBody := (extractBodies payload).2
                      «from» := extractSender (payload.headers.getD [])
                      date := toISO t }) := by
  refine ⟨?_, ?_, ?_⟩
  · intro dateHeader hf hp
    simp [fetchEmailContent, hf, hp]
  · intro hf
    simp [fetchEmailContent, hf, extractBodies]
  · intro dateHeader t hf hp
    simp [fetchEmailContent, hf, hp, extractBodies]

/-- Witness for claim C9 at a payload with an unparsable Date header. -/
theorem claim_C9_witness :
    fetchEmailContent (fun _ => none) (fun _ => "unused")
      (Except.ok ⟨some [⟨"Date", "not a date"⟩], "text/plain", some "aGVsbG8=", none⟩)
      = Except.error "Invalid time value" :=
  (claim_C9_invalid_date_fatal (fun _ => none) (fun _ => "unused")
    ⟨some [⟨"Date", "not a date"⟩], "text/plain", some "aGVsbG8=", none⟩).1
    ⟨"Date", "not a date"⟩ rfl rfl

/-- Claim C6: fetchEmailsWithLabelSubjects never throws (the embedding is
total and both network interactions are modeled as Except values): a
rejected list query and a non success status each return the empty list,
and a metadata fetch failure for one message identifier removes exactly
that message from the loop result while the remaining identifiers are
processed unchanged. -/
theorem claim_C6_silent_degradation (getResult : String → Except String MetaMessage) :
    (∀ e, fetchEmailsWithLabelSubjects (Except.error e) getResult = []) ∧
    (∀ response : ListResponse, response.status ≠ 200 →
      fetchEmailsWithLabelSubjects (Except.ok response) getResult = []) ∧
    (∀ (pre post : List (Option String)) (mid : String) (e : String),
      mid ≠ "" → getResult mid = Except.error e →
      fetchEmailsLoop getResult (pre ++ some mid :: post)
        = fetchEmailsLoop getResult (pre ++ post)) := by
  refine ⟨fun e => rfl, ?_, ?_⟩
  · intro response h
    simp [fetchEmailsWithLabelSubjects, h]
  · intro pre post mid e hm hg
    induction pre with
    | nil => simp [fetchEmailsLoop, hm, hg]
    | cons p rest ih =>
      cases p with
      | none => simpa [fetchEmailsLoop] using ih
      | some pid =>
        by_cases hp : pid = ""
        · simpa [fetchEmailsLoop, hp] using ih
        · cases hgr : getResult pid with
          | error err => simpa [fetchEmailsLoop, hp, hgr] using ih
          | ok msg => simpa [fetchEmailsLoop, hp, hgr] using ih

/-- Witness for claim C6: concrete rejected and non success list queries,
and the loop dropping exactly the failing identifier. -/
theorem claim_C6_witness :
    fetchEmailsWithLabelSubjects (Except.error "network down")
      (fun _ => Except.ok ⟨none⟩) = [] ∧
    fetchEmailsWithLabelSubjects
      (Except.ok ⟨404, some [⟨some "m1"⟩]⟩) (fun _ => Except.ok ⟨none⟩) = [] ∧
    fetchEmailsLoop (fun _ => Except.error "boom") ([] ++ some "m1" :: [some "m2"])
      = fetchEmailsLoop (fun _ => Except.error "boom") ([] ++ [some "m2"]) := by
  refine ⟨(claim_C6_silent_degradation (fun _ => Except.ok ⟨none⟩)).1 "network down",
    (claim_C6_silent_degradation (fun _ => Except.ok ⟨none⟩)).2.1 ⟨404, some [⟨some "m1"⟩]⟩ (by decide),
    (claim_C6_silent_degradation (fun _ => Except.error "boom")).2.2 [] [some "m2"] "m1" "boom" (by decide) rfl⟩
/-- Claim C8: for a From header of the form Name followed by an address in
angle brackets, sender extraction yields exactly the bracketed address
trimmed; for a header that is a bare address token the token itself is
returned; and when the regex matches nothing, or no From header exists, the
sender is the unknown marker. -/
theorem claim_C8_sender_extraction :
    (∀ n a : String, (∀ c ∈ n.toList, c ≠ '<') → a.toList ≠ [] →
      (∀ c ∈ a.toList, c ≠ '>') →
      extractSender [⟨"From", n ++ "<" ++ a ++ ">"⟩] = jsTrim a) ∧
    (∀ v : String, isBareAddress v.toList = true →
      extractSender [⟨"From", v⟩] = v) ∧
    (∀ v : String, fromMatch v.toList = none →
      extractSender [⟨"From", v⟩] = "unknown") ∧
    extractSender [] = "unknown" := by
  refine ⟨?_, ?_, ?_, rfl⟩
  · intro n a hn ha1 ha2
    rw [extractSender_from_header]
    have hlist : (n ++ "<" ++ a ++ ">").toList = n.toList ++ '<' :: (a.toList ++ ['>']) := by
      rw [string_toList_append, string_toList_append, string_toList_append]
      simp
    rw [hlist, fromMatch_angle n.toList a.toList hn ha1 ha2]
    cases a with
    | mk d => rfl
  · intro v hb
    rw [extractSender_from_header]
    have hne : v.toList ≠ [] := by
      intro he
      rw [he] at hb
      simp [isBareAddress] at hb
    have hfm : fromMatch v.toList = some v.toList := by
      rw [fromMatch.eq_def]
      cases hv : v.toList with
      | nil => exact absurd hv hne
      | cons c rest =>
        have hc : c ≠ '<' := isBareAddress_head_not_lt c rest (hv ▸ hb)
        rw [tryAngleAt_not_lt c rest hc]
        rw [← hv, hb]
        simp
    rw [hfm]
    have : jsTrimChars v.toList = v.toList :=
      jsTrimChars_id v.toList (isBareAddress_no_ws v.toList hb)
    show jsTrim ⟨v.toList⟩ = v
    rw [jsTrim]
    cases v with
    | mk d =>
      show (⟨jsTrimChars d⟩ : String) = ⟨d⟩
      rw [show jsTrimChars d = d from this]
  · intro v hm
    rw [extractSender_from_header, hm]

/-- Witness for claim C8 at three concrete From headers. -/
theorem claim_C8_witness :
    extractSender [⟨"From", "John Doe <a@b.com>"⟩] = "a@b.com" ∧
    extractSender [⟨"From", "a@b.com"⟩] = "a@b.com" ∧
    extractSender [⟨"From", "???"⟩] = "unknown" ∧
    extractSender [] = "unknown" := by
  refine ⟨?_, ?_, ?_, claim_C8_sender_extraction.2.2.2⟩
  · have h := claim_C8_sender_extraction.1 "John Doe " "a@b.com"
      (by decide) (by decide) (by decide)
    exact h.trans rfl
  · exact claim_C8_sender_extraction.2.1 "a@b.com" (by decide)
  · exact claim_C8_sender_extraction.2.2.1 "???" rfl
/-- Claim C5 (amended): provided every part of the tree with the requested
MIME type has nonempty decoded content, extractBodyFromParts returns the
decoded content of the first matching part in depth first preorder (empty
when no part matches), for any MIME type, so in particular for the HTML and
the plain text searches; content of several parts is never merged. Without
the proviso the claim fails: a nested matching part with empty decoded
content does not stop the search, see the counterexample. -/
theorem claim_C5_first_match_extraction (parts : List MessagePart) (mimeType : String)
    (h : allMatchesNonempty parts mimeType = true) :
    extractBodyFromParts parts mimeType = specBodyFromParts parts mimeType := by
  induction parts, mimeType using extractBodyFromParts.induct with
  | case1 m =>
    rw [extractBodyFromParts.eq_1, specBodyFromParts, firstPartDFS.eq_1]
  | case2 bd sub rest m =>
    cases sub with
    | none =>
      rw [extractBodyFromParts.eq_3, if_pos rfl, specBodyFromParts,
        firstPartDFS.eq_3, if_pos rfl]
    | some sp =>
      rw [extractBodyFromParts.eq_2, if_pos rfl, specBodyFromParts,
        firstPartDFS.eq_2, if_pos rfl]
  | case3 mt bd rest m hmt subparts nested hne ih =>
    have hsub := (allMatchesNonempty_parts mt bd (some subparts) rest m h).2.1 subparts rfl
    have heq : extractBodyFromParts subparts m = specBodyFromParts subparts m := ih hsub
    have hlhs : extractBodyFromParts (MessagePart.mk mt bd (some subparts) :: rest) m
        = extractBodyFromParts subparts m := by
      rw [extractBodyFromParts.eq_2, if_neg hmt]
      exact if_pos hne
    cases hf : firstPartDFS subparts m with
    | none =>
      exfalso
      apply hne
      show extractBodyFromParts subparts m = ""
      rw [heq]
      rw [specBodyFromParts]
      simp only [hf]
    | some found =>
      cases found with
      | mk mt2 bd2 sub2 =>
        have hrhs : specBodyFromParts (MessagePart.mk mt bd (some subparts) :: rest) m
            = decodeContent bd2 := by
          rw [specBodyFromParts, firstPartDFS.eq_2, if_neg hmt]
          simp only [hf]
        have hval : extractBodyFromParts subparts m = decodeContent bd2 := by
          rw [heq, specBodyFromParts]
          simp only [hf]
        rw [hlhs, hrhs, hval]
  | case4 mt bd rest m hmt subparts nested hne ihsub ihrest =>
    have hsub := (allMatchesNonempty_parts mt bd (some subparts) rest m h).2.1 subparts rfl
    have hrest := (allMatchesNonempty_parts mt bd (some subparts) rest m h).2.2
    have heq : extractBodyFromParts subparts m = specBodyFromParts subparts m := ihsub hsub
    have hempty : extractBodyFromParts subparts m = "" := by
      by_contra hc
      exact hne hc
    have hnone : firstPartDFS subparts m = none := by
      cases hf : firstPartDFS subparts m with
      | none => rfl
      | some found =>
        cases found with
        | mk mt2 bd2 sub2 =>
          exfalso
          apply firstPartDFS_nonempty subparts m hsub mt2 bd2 sub2 hf
          have hspec : specBodyFromParts subparts m = decodeContent bd2 := by
            rw [specBodyFromParts]
            simp only [hf]
          rw [← hspec, ← heq]
          exact hempty
    have hspec_cons : specBodyFromParts (MessagePart.mk mt bd (some subparts) :: rest) m
        = specBodyFromParts rest m := by
      rw [specBodyFromParts, firstPartDFS.eq_2, if_neg hmt]
      simp only [hnone]
      rw [specBodyFromParts]
    have hlhs : extractBodyFromParts (MessagePart.mk mt bd (some subparts) :: rest) m
        = extractBodyFromParts rest m := by
      rw [extractBodyFromParts.eq_2, if_neg hmt]
      exact if_neg (by simpa using hne)
    rw [hlhs, ihrest hrest, hspec_cons]
  | case5 mt bd rest m hmt ihrest =>
    have hrest := (allMatchesNonempty_parts mt bd none rest m h).2.2
    have hspec_cons : specBodyFromParts (MessagePart.mk mt bd none :: rest) m
        = specBodyFromParts rest m := by
      rw [specBodyFromParts, firstPartDFS.eq_3, if_neg hmt]
      rw [specBodyFromParts]
    have hlhs : extractBodyFromParts (MessagePart.mk mt bd none :: rest) m
        = extractBodyFromParts rest m := by
      rw [extractBodyFromParts.eq_3, if_neg hmt]
    rw [hlhs, ihrest hrest, hspec_cons]

/-- Counterexample for claim C5 as stated: in a tree whose first depth
first HTML part (nested in a container) decodes to the empty string, the
claimed result is that empty content, but the code continues the search and
returns the content of a later HTML part. -/
theorem claim_C5_counterexample :
    extractBodyFromParts
        [MessagePart.mk "multipart/alternative" none
          (some [MessagePart.mk "text/html" (some "") none]),
         MessagePart.mk "text/html" (some "aGVsbG8=") none] "text/html" = "hello" ∧
    specBodyFromParts
        [MessagePart.mk "multipart/alternative" none
          (some [MessagePart.mk "text/html" (some "") none]),
         MessagePart.mk "text/html" (some "aGVsbG8=") none] "text/html" = "" ∧
    ("hello" : String) ≠ "" := by
  refine ⟨?_, ?_, by decide⟩
  · have h1 : extractBodyFromParts [MessagePart.mk "text/html" (some "") none] "text/html"
        = "" := by
      rw [extractBodyFromParts.eq_3, if_pos rfl]
      rfl
    have h2 : extractBodyFromParts
        [MessagePart.mk "text/html" (some "aGVsbG8=") none] "text/html" = "hello" := by
      rw [extractBodyFromParts.eq_3, if_pos rfl]
      rfl
    rw [extractBodyFromParts.eq_2, if_neg (by decide)]
    simp only [h1, h2]
    simp
  · have hf1 : firstPartDFS [MessagePart.mk "text/html" (some "") none] "text/html"
        = some (MessagePart.mk "text/html" (some "") none) := by
      rw [firstPartDFS.eq_3, if_pos rfl]
    rw [specBodyFromParts, firstPartDFS.eq_2, if_neg (by decide)]
    simp only [hf1]
    rfl

/-- Witness for the amended claim C5 on a concrete tree whose matching
parts all have nonempty content. -/
theorem claim_C5_witness :
    allMatchesNonempty
        [MessagePart.mk "multipart/alternative" none
          (some [MessagePart.mk "text/plain" (some "aGk=") none]),
         MessagePart.mk "text/plain" (some "eW8=") none] "text/plain" = true ∧
    extractBodyFromParts
        [MessagePart.mk "multipart/alternative" none
          (some [MessagePart.mk "text/plain" (some "aGk=") none]),
         MessagePart.mk "text/plain" (some "eW8=") none] "text/plain"
      = specBodyFromParts
        [MessagePart.mk "multipart/alternative" none
          (some [MessagePart.mk "text/plain" (some "aGk=") none]),
         MessagePart.mk "text/plain" (some "eW8=") none] "text/plain" := by
  have hsub : allMatchesNonempty
      [MessagePart.mk "text/plain" (some "aGk=") none] "text/plain" = true := by
    rw [allMatchesNonempty.eq_3, if_pos rfl, allMatchesNonempty.eq_1]
    decide
  have htail : allMatchesNonempty
      [MessagePart.mk "text/plain" (some "eW8=") none] "text/plain" = true := by
    rw [allMatchesNonempty.eq_3, if_pos rfl, allMatchesNonempty.eq_1]
    decide
  have hall : allMatchesNonempty
      [MessagePart.mk "multipart/alternative" none
        (some [MessagePart.mk "text/plain" (some "aGk=") none]),
       MessagePart.mk "text/plain" (some "eW8=") none] "text/plain" = true := by
    rw [allMatchesNonempty.eq_2, if_neg (by decide), hsub, htail]
    rfl
  exact ⟨hall, claim_C5_first_match_extraction _ _ hall⟩

end JotsGoogleImporter
